import Mathlib

/-!
Shallow embedding of the `AccReader` buffered seekable reader
(`src/format/src/buffer/accreader.rs`) and proofs about its operations.

Bytes are modelled as natural numbers, buffers as lists, and the wrapped
source as an in-memory cursor (a byte list together with a read position),
matching the `Cursor`-style sources the repository uses.  The source may be
marked so that its seek operation fails with a given error code, which
models a source whose seek is rejected.
-/

namespace AccRead

/-- Model of the wrapped byte source: an in-memory cursor over `data` with
current read position `spos`.  When `seekFail = some e`, every seek on the
source fails with error code `e` (sequential reads still work), modelling a
source that rejects seeks. -/
structure Source where
  data : List Nat
  spos : Nat
  seekFail : Option Nat
deriving DecidableEq, Repr

/-- Model of `std::io::SeekFrom`. -/
inductive SeekFrom where
  | start : Nat → SeekFrom
  | «end» : Int → SeekFrom
  | current : Int → SeekFrom
deriving DecidableEq, Repr

/-- Sequential read of up to `n` bytes from the source: returns the bytes
read (possibly fewer than `n`, empty at end of stream) and the advanced
source. -/
def Source.read (s : Source) (n : Nat) : List Nat × Source :=
  let bs := (s.data.drop s.spos).take n
  (bs, { s with spos := s.spos + bs.length })

/-- Seek on the source: absolute, end-relative or current-relative, returning
the resulting absolute offset; fails when the source is marked seek-failing
or the target would be negative. -/
def Source.seek (s : Source) (sf : SeekFrom) : Except Nat (Nat × Source) :=
  match s.seekFail with
  | some e => .error e
  | none =>
    match sf with
    | .start n => .ok (n, { s with spos := n })
    | .«end» d =>
      let t : Int := (s.data.length : Int) + d
      if t < 0 then .error 0 else .ok (t.toNat, { s with spos := t.toNat })
    | .current d =>
      let t : Int := (s.spos : Int) + d
      if t < 0 then .error 0 else .ok (t.toNat, { s with spos := t.toNat })

/-- The reader state: wrapped source `inner`, owned buffer `buf`, the
unconsumed window `[pos, end)` and the absolute stream offset `index` of the
byte at buffer offset `pos`. -/
structure AccReader where
  inner : Source
  buf : List Nat
  pos : Nat
  «end» : Nat
  index : Nat
deriving DecidableEq, Repr

/-- Constructor with_capacity: zero-filled buffer of length `cap`,
`pos = end = index = 0`, source untouched. -/
def AccReader.with_capacity (cap : Nat) (inner : Source) : AccReader :=
  { inner := inner
    buf := List.replicate cap 0
    pos := 0
    «end» := 0
    index := 0 }

/-- Constructor new: capacity 4096. -/
def AccReader.new (inner : Source) : AccReader :=
  AccReader.with_capacity 4096 inner

/-- Model of Vec resize to `newLen` with zero fill: truncate or pad with zeros. -/
def resizeList (l : List Nat) (newLen : Nat) : List Nat :=
  if newLen ≤ l.length then l.take newLen
  else l ++ List.replicate (newLen - l.length) 0

/-- Operation grow: resize the buffer to `buf.len() + len` zeros-padded. -/
def AccReader.grow (r : AccReader) (len : Nat) : AccReader :=
  { r with buf := resizeList r.buf (r.buf.length + len) }

/-- Operations data and current_slice: the unconsumed window
`buf[pos..end]`. -/
def AccReader.data (r : AccReader) : List Nat :=
  (r.buf.drop r.pos).take (r.«end» - r.pos)

/-- Compaction (reset_buffer_position): copy the window `buf[pos..end]` down to offset
0 (bytes at and beyond offset `end - pos` keep their old values), then set
`end := end - pos` and `pos := 0`. -/
def AccReader.reset_buffer_position (r : AccReader) : AccReader :=
  let w := r.«end» - r.pos
  { r with
    buf := (r.buf.drop r.pos).take w ++ r.buf.drop w
    pos := 0
    «end» := w }

/-- Write `bs` into list `d` starting at offset `off`, leaving the rest of
`d` unchanged (models a `Read::read` into the subslice `d[off..]`). -/
def writeAt (d : List Nat) (off : Nat) (bs : List Nat) : List Nat :=
  d.take off ++ bs ++ d.drop (off + bs.length)

/-- Operation fill_buf: unless the buffer already starts at 0 and is full,
compact the window to offset 0 and read from the source into the free tail
`buf[end..]`; return the new state together with the slice `buf[pos..end]`. -/
def AccReader.fill_buf (r : AccReader) : AccReader × List Nat :=
  if r.pos ≠ 0 ∨ r.«end» ≠ r.buf.length then
    let r1 := r.reset_buffer_position
    let t := r1.inner.read (r1.buf.length - r1.«end»)
    let r2 : AccReader :=
      { r1 with
        inner := t.2
        buf := writeAt r1.buf r1.«end» t.1
        «end» := r1.«end» + t.1.length }
    (r2, (r2.buf.drop r2.pos).take (r2.«end» - r2.pos))
  else
    (r, (r.buf.drop r.pos).take (r.«end» - r.pos))

/-- Operation consume: `pos := min (pos + amt) end`, `index := index + amt`. -/
def AccReader.consume (r : AccReader) (amt : Nat) : AccReader :=
  { r with pos := min (r.pos + amt) r.«end», index := r.index + amt }

/-- Model of the byte-slice read instance: copy `min (s.length) (d.length)` bytes
from `s` over the front of `d`; returns the count and the updated
destination. -/
def sliceRead (s d : List Nat) : Nat × List Nat :=
  let k := min s.length d.length
  (k, s.take k ++ d.drop k)

/-- Operation read, with the three branches of the source:
small request served from the buffer, oversized request bypassing the
buffer (draining the window into the front of `dest` and then reading the
source directly into `dest[end..]`, exactly as the code does), and the
fill-then-copy branch.  Returns the reported count, the updated destination
and the new reader state. -/
def AccReader.read (r : AccReader) (dest : List Nat) : Nat × List Nat × AccReader :=
  if dest.length < r.«end» - r.pos then
    let t := sliceRead ((r.buf.drop r.pos).take dest.length) dest
    (t.1, t.2, r.consume t.1)
  else if r.buf.length < dest.length then
    let t := sliceRead ((r.buf.drop r.pos).take (r.«end» - r.pos)) dest
    let r1 := r.consume t.1
    let u := r1.inner.read (dest.length - r1.«end»)
    (u.1.length, writeAt t.2 r1.«end» u.1, { r1 with inner := u.2 })
  else
    let f := r.fill_buf
    let t := sliceRead f.2 dest
    (t.1, t.2, f.1.consume t.1)

/-- The fall-through source-level seek path (lines 187-196): delegate to the
source; on success reset the window, set `index` to the reported offset and
eagerly refill; on failure return the error with the state untouched. -/
def AccReader.seek_source (r : AccReader) (sf : SeekFrom) : Except Nat Nat × AccReader :=
  match r.inner.seek sf with
  | .ok t =>
    let r1 : AccReader := { r with inner := t.2, index := t.1, pos := 0, «end» := 0 }
    (.ok t.1, r1.fill_buf.1)
  | .error e => (.error e, r)

/-- Operation seek: in-window absolute and non-negative
in-window relative seeks are served from the buffer (the relative branch
assigns `index := S`, exactly as the code does); everything else falls
through to the source-level path. -/
def AccReader.seek (r : AccReader) (sf : SeekFrom) : Except Nat Nat × AccReader :=
  match sf with
  | .start mv =>
    if r.index ≤ mv ∧ mv < r.index + r.«end» - r.pos then
      (.ok mv, { r with pos := r.pos + (mv - r.index), index := mv })
    else r.seek_source sf
  | .«end» _ => r.seek_source sf
  | .current sz =>
    if 0 ≤ sz ∧ sz.toNat ≤ r.«end» - r.pos then
      (.ok sz.toNat, { r with index := sz.toNat, pos := r.pos + sz.toNat })
    else r.seek_source sf

/-- Absolute stream offset of the first byte of the buffered window, that
is, the number of source bytes already handed to the caller when the window
bookkeeping is consistent. -/
def delivered (r : AccReader) : Nat :=
  r.inner.spos - (r.«end» - r.pos)

/-- The basic structural invariant of the reader: `pos ≤ end ≤ buf.length`. -/
def Inv (r : AccReader) : Prop :=
  r.pos ≤ r.«end» ∧ r.«end» ≤ r.buf.length

/-- The refinement invariant used for the round-trip property: the window is
within bounds and holds exactly the source bytes between `delivered` and the
source read position. -/
def InvR (r : AccReader) : Prop :=
  r.pos ≤ r.«end» ∧ r.«end» ≤ r.buf.length ∧
  r.«end» - r.pos ≤ r.inner.spos ∧ r.inner.spos ≤ r.inner.data.length ∧
  r.data = (r.inner.data.drop (delivered r)).take (r.«end» - r.pos)

/-- One caller-visible operation on the reader. -/
inductive Op where
  | fill : Op
  | consume : Nat → Op
  | read : Nat → Op
  | seek : SeekFrom → Op
  | grow : Nat → Op
deriving DecidableEq, Repr

/-- State reached after one operation (outputs discarded; `read n` uses a
fresh zeroed destination of length `n`). -/
def applyOp (r : AccReader) : Op → AccReader
  | .fill => r.fill_buf.1
  | .consume n => r.consume n
  | .read n => (r.read (List.replicate n 0)).2.2
  | .seek sf => (r.seek sf).2
  | .grow n => r.grow n

/-- Run a sequence of `read` calls with fresh zeroed destinations of the
given lengths, collecting the byte lists actually handed to the caller
(the first `count` bytes of each destination) and the final state. -/
def runReads (r : AccReader) : List Nat → List (List Nat) × AccReader
  | [] => ([], r)
  | n :: ns =>
    let t := r.read (List.replicate n 0)
    let u := runReads t.2.2 ns
    (t.2.1.take t.1 :: u.1, u.2)

/-- Concrete state used to evaluate `consume` past the window end. -/
def cexConsume : AccReader :=
  ⟨⟨[], 0, none⟩, [5, 6, 7, 8], 0, 2, 10⟩

/-- A ten-byte in-memory source. -/
def src20 : Source :=
  ⟨[20, 21, 22, 23, 24, 25, 26, 27, 28, 29], 0, none⟩

/-- Reachable state over `src20` with capacity 4: after one fill and
`consume 1` the window is `[21, 22, 23]` at `pos = 1`, `end = 4`,
`index = 1`. -/
def rdr4 : AccReader :=
  ((AccReader.with_capacity 4 src20).fill_buf.1).consume 1

/-- Reachable state over a source whose seek fails with error code 7. -/
def failSeekReader : AccReader :=
  ((AccReader.with_capacity 4 ⟨[20, 21, 22], 0, some 7⟩).fill_buf.1).consume 1

/-- Reader of capacity zero over a non-exhausted source. -/
def zeroCapReader : AccReader :=
  AccReader.with_capacity 0 ⟨[1, 2, 3], 0, none⟩

/-! ## Theorems -/

/-- Claim C1, counterexample: at the concrete state with `pos = 0`,
`end = 2`, `index = 10`, consuming 5 does not advance `index` by the
clamped amount `min 5 (end - pos) = 2`: the code advances it by the full 5
(to 15, not 12). -/
theorem c1_counterexample :
    ¬ (cexConsume.consume 5).index
        = cexConsume.index + min 5 (cexConsume.«end» - cexConsume.pos) := by
  decide

/-- Claim C1 as amended: `consume k` advances `pos` by `k` clamped so that
`pos` never exceeds `end`, and advances `index` by the full amount `k`,
unclamped (so the two advance together exactly when `k ≤ end - pos`). -/
theorem c1_consume_clamps_pos_not_index (r : AccReader) (k : Nat) :
    (r.consume k).pos = min (r.pos + k) r.«end» ∧
    (r.consume k).index = r.index + k :=
  ⟨rfl, rfl⟩

/-- Claim C2: evaluation of the oversized-read branch at a reachable state
with `pos = 1`, `end = 4` (drained count 3).  The direct source read is
written at destination offset `end = 4`, not at the drained count 3, so the
destination keeps its stale byte 0 at offset 3 and differs from the
destination the claim describes. -/
theorem c2_oversized_read_offset_eval :
    rdr4.pos = 1 ∧ rdr4.«end» = 4 ∧
    (rdr4.read (List.replicate 6 0)).2.1 = [21, 22, 23, 0, 24, 25] ∧
    (rdr4.read (List.replicate 6 0)).2.1 ≠ [21, 22, 23, 24, 25, 26] := by
  decide

/-- Claim C3: evaluation of the non-negative in-window relative seek at a
reachable state with `index = 1`.  Seeking by `S = 2` sets `index` to 2
instead of advancing it to `index + S = 3` (and reports 2 as the resulting
absolute position); `pos` is advanced by `S` and the source is untouched. -/
theorem c3_relative_seek_index_eval :
    rdr4.index = 1 ∧
    (rdr4.seek (.current 2)).1 = .ok 2 ∧
    (rdr4.seek (.current 2)).2.index = 2 ∧
    (rdr4.seek (.current 2)).2.index ≠ rdr4.index + 2 ∧
    (rdr4.seek (.current 2)).2.pos = rdr4.pos + 2 ∧
    (rdr4.seek (.current 2)).2.inner = rdr4.inner :=
  ⟨by decide, rfl, by decide, by decide, by decide, by decide⟩

/-- Claim C10: construction with any capacity over any source state yields
`pos = end = index = 0` and leaves the source untouched (whatever its
current position), and `new` is construction with capacity 4096. -/
theorem c10_construction_initial_state (src : Source) (cap : Nat) :
    (AccReader.with_capacity cap src).pos = 0 ∧
    (AccReader.with_capacity cap src).«end» = 0 ∧
    (AccReader.with_capacity cap src).index = 0 ∧
    (AccReader.with_capacity cap src).inner = src ∧
    (AccReader.with_capacity cap src).buf = List.replicate cap 0 ∧
    AccReader.new src = AccReader.with_capacity 4096 src :=
  ⟨rfl, rfl, rfl, rfl, rfl, rfl⟩

/-- On the fall-through path, a failing source seek leaves the reader
untouched and the error is the one the source produced. -/
theorem seek_source_error_frame (r : AccReader) (sf : SeekFrom) (e : Nat)
    (h : (r.seek_source sf).1 = .error e) :
    (r.seek_source sf).2 = r ∧ r.inner.seek sf = .error e := by
  unfold AccReader.seek_source at h ⊢
  cases hs : r.inner.seek sf with
  | ok t => rw [hs] at h; simp at h
  | error e2 =>
    rw [hs] at h
    simp at h
    subst h
    exact ⟨rfl, rfl⟩

/-- Claim C4: whenever `seek` returns an error, the whole reader state
(`pos`, `end`, `index`, buffer and source) is exactly what it was before
the call, and the error is the one produced by the source seek,
propagated unmodified. -/
theorem c4_seek_error_preserves_state (r : AccReader) (sf : SeekFrom) (e : Nat)
    (h : (r.seek sf).1 = .error e) :
    (r.seek sf).2 = r ∧ r.inner.seek sf = .error e := by
  cases sf with
  | start mv =>
    simp only [AccReader.seek] at h ⊢
    by_cases hw : r.index ≤ mv ∧ mv < r.index + r.«end» - r.pos
    · rw [if_pos hw] at h; simp at h
    · rw [if_neg hw] at h ⊢
      exact seek_source_error_frame r _ e h
  | «end» d =>
    simp only [AccReader.seek] at h ⊢
    exact seek_source_error_frame r _ e h
  | current sz =>
    simp only [AccReader.seek] at h ⊢
    by_cases hw : 0 ≤ sz ∧ sz.toNat ≤ r.«end» - r.pos
    · rw [if_pos hw] at h; simp at h
    · rw [if_neg hw] at h ⊢
      exact seek_source_error_frame r _ e h

/-- Witness for C4 at a reachable state over a source whose seek fails
with error code 7. -/
theorem c4_witness :
    (failSeekReader.seek (.«end» 0)).2 = failSeekReader ∧
    failSeekReader.inner.seek (.«end» 0) = .error 7 :=
  c4_seek_error_preserves_state failSeekReader (.«end» 0) 7 (by
    show (failSeekReader.seek (.«end» 0)).1 = .error 7
    rfl)

/-- Claim C6: an absolute seek to a target inside the buffered window
(`index ≤ T < index + (end - pos)`) moves `pos` by the in-window delta,
sets `index` to the target, returns the target, and leaves the buffer,
`end` and the source untouched; an absolute seek outside that window falls
through to the source-level path. -/
theorem c6_absolute_seek_window (r : AccReader) (mv : Nat) (h : r.pos ≤ r.«end») :
    (r.index ≤ mv ∧ mv < r.index + (r.«end» - r.pos) →
      r.seek (.start mv)
        = (.ok mv, { r with pos := r.pos + (mv - r.index), index := mv })) ∧
    (¬ (r.index ≤ mv ∧ mv < r.index + (r.«end» - r.pos)) →
      r.seek (.start mv) = r.seek_source (.start mv)) := by
  constructor
  · intro hw
    have hw2 : r.index ≤ mv ∧ mv < r.index + r.«end» - r.pos := by omega
    simp only [AccReader.seek]
    rw [if_pos hw2]
  · intro hw
    have hw2 : ¬ (r.index ≤ mv ∧ mv < r.index + r.«end» - r.pos) := by omega
    simp only [AccReader.seek]
    rw [if_neg hw2]

/-- Witness for C6: in-window absolute seek at a reachable state. -/
theorem c6_witness :
    rdr4.seek (.start 2)
      = (.ok 2, { rdr4 with pos := rdr4.pos + (2 - rdr4.index), index := 2 }) :=
  (c6_absolute_seek_window rdr4 2 (by decide)).1 (by decide)

/-- The buffer after `grow n` is the old buffer with `n` appended zeros. -/
theorem grow_buf_eq (r : AccReader) (n : Nat) :
    (r.grow n).buf = r.buf ++ List.replicate n 0 := by
  show resizeList r.buf (r.buf.length + n) = _
  unfold resizeList
  by_cases hc : r.buf.length + n ≤ r.buf.length
  · have hn : n = 0 := by omega
    subst hn
    simp
  · rw [if_neg hc]
    simp

/-- Claim C9: `grow n` appends exactly `n` zero bytes after the current
capacity and changes nothing else: `pos`, `end`, `index`, the source and
the unconsumed window `[pos, end)` are all untouched. -/
theorem c9_grow_frame (r : AccReader) (n : Nat)
    (h1 : r.pos ≤ r.«end») (h2 : r.«end» ≤ r.buf.length) :
    (r.grow n).buf = r.buf ++ List.replicate n 0 ∧
    (r.grow n).buf.length = r.buf.length + n ∧
    (r.grow n).pos = r.pos ∧
    (r.grow n).«end» = r.«end» ∧
    (r.grow n).index = r.index ∧
    (r.grow n).inner = r.inner ∧
    (r.grow n).data = r.data := by
  have hbuf := grow_buf_eq r n
  refine ⟨hbuf, ?_, rfl, rfl, rfl, rfl, ?_⟩
  · rw [hbuf]; simp
  · show ((r.grow n).buf.drop r.pos).take (r.«end» - r.pos)
        = (r.buf.drop r.pos).take (r.«end» - r.pos)
    rw [hbuf, List.drop_append_of_le_length (by omega),
      List.take_append_of_le_length (by simp; omega)]

/-- Witness for C9 at a reachable state. -/
theorem c9_witness :
    (rdr4.grow 2).buf = rdr4.buf ++ List.replicate 2 0 ∧
    (rdr4.grow 2).data = rdr4.data := by
  have h := c9_grow_frame rdr4 2 (by decide) (by decide)
  exact ⟨h.1, h.2.2.2.2.2.2⟩

/-- Compaction moves the window to offset 0 and changes nothing else: the
window content, the buffer length, the source and `index` are preserved. -/
theorem reset_spec (r : AccReader) (h1 : r.pos ≤ r.«end») (h2 : r.«end» ≤ r.buf.length) :
    r.reset_buffer_position.pos = 0 ∧
    r.reset_buffer_position.«end» = r.«end» - r.pos ∧
    r.reset_buffer_position.inner = r.inner ∧
    r.reset_buffer_position.index = r.index ∧
    r.reset_buffer_position.buf.length = r.buf.length ∧
    r.reset_buffer_position.data = r.data := by
  refine ⟨rfl, rfl, rfl, rfl, ?_, ?_⟩
  · show ((r.buf.drop r.pos).take (r.«end» - r.pos)
        ++ r.buf.drop (r.«end» - r.pos)).length = r.buf.length
    simp
    omega
  · show (((r.buf.drop r.pos).take (r.«end» - r.pos)
        ++ r.buf.drop (r.«end» - r.pos)).drop 0).take (r.«end» - r.pos - 0)
      = r.data
    rw [List.drop_zero, Nat.sub_zero, List.take_left' (by simp; omega)]
    rfl

/-- Writing inside the bounds of a list preserves its length. -/
theorem writeAt_length (d : List Nat) (off : Nat) (bs : List Nat)
    (h : off + bs.length ≤ d.length) : (writeAt d off bs).length = d.length := by
  unfold writeAt
  simp
  omega

/-- Behaviour of `fill_buf` under the structural invariant: the result has
`pos = 0`, an `end` at least the old window length and within the (still
unchanged) buffer length; the source byte sequence and `index` are
untouched, the returned slice is exactly the new window, the source
position advances by the number of new bytes, and when the old window was
empty, the buffer nonempty and the source not exhausted, at least one new
byte arrives. -/
theorem fill_buf_spec (r : AccReader) (h1 : r.pos ≤ r.«end») (h2 : r.«end» ≤ r.buf.length) :
    r.fill_buf.1.pos = 0 ∧
    r.«end» - r.pos ≤ r.fill_buf.1.«end» ∧
    r.fill_buf.1.«end» ≤ r.fill_buf.1.buf.length ∧
    r.fill_buf.1.buf.length = r.buf.length ∧
    r.fill_buf.1.inner.data = r.inner.data ∧
    r.fill_buf.1.index = r.index ∧
    r.fill_buf.2 = r.fill_buf.1.data ∧
    r.fill_buf.1.inner.spos
      = r.inner.spos + (r.fill_buf.1.«end» - (r.«end» - r.pos)) ∧
    (r.«end» - r.pos = 0 → r.inner.spos < r.inner.data.length →
      1 ≤ r.buf.length → 1 ≤ r.fill_buf.1.«end») ∧
    r.fill_buf.1.inner.spos ≤ max r.inner.spos r.inner.data.length := by
  by_cases hc : r.pos ≠ 0 ∨ r.«end» ≠ r.buf.length
  · unfold AccReader.fill_buf
    rw [if_pos hc]
    simp only [AccReader.reset_buffer_position, Source.read, writeAt, AccReader.data]
    refine ⟨?_, ?_, ?_, ?_, ?_, ?_, ?_, ?_, ?_, ?_⟩ <;> simp <;> intros <;> omega
  · unfold AccReader.fill_buf
    rw [if_neg hc]
    push_neg at hc
    refine ⟨?_, ?_, ?_, ?_, ?_, ?_, ?_, ?_, ?_, ?_⟩ <;>
      simp [AccReader.data] <;> intros <;> omega

/-- Claim C5, counterexample: a reader constructed with capacity 0 over a
non-exhausted source returns an empty window from a successful `fill_buf`
(the guard `pos ≠ 0 ∨ end ≠ buf.len` is false at `pos = end = len = 0`, so
the source is never read). -/
theorem c5_counterexample :
    ¬ (zeroCapReader.fill_buf.2 ≠ [] ∨
       zeroCapReader.inner.data.length ≤ zeroCapReader.inner.spos) := by
  decide

/-- Claim C5 as amended: for every reader with positive capacity (and the
structural bounds `pos ≤ end ≤ buf.len`), after `fill_buf` the returned
unconsumed window is non-empty unless the source is exhausted. -/
theorem c5_fill_buf_nonempty (r : AccReader) (h1 : r.pos ≤ r.«end»)
    (h2 : r.«end» ≤ r.buf.length) (hcap : 1 ≤ r.buf.length) :
    r.fill_buf.2 ≠ [] ∨ r.inner.data.length ≤ r.inner.spos := by
  by_cases hx : r.inner.data.length ≤ r.inner.spos
  · exact Or.inr hx
  · left
    obtain ⟨hp0, hwle, hele, hlen, _, _, hs2, _, hgrow, _⟩ := fill_buf_spec r h1 h2
    rw [hs2]
    apply List.ne_nil_of_length_pos
    have hdl : r.fill_buf.1.data.length = r.fill_buf.1.«end» := by
      unfold AccReader.data
      simp [hp0]
      omega
    rcases Nat.eq_zero_or_pos (r.«end» - r.pos) with h0 | h0
    · have := hgrow h0 (by omega) hcap
      omega
    · omega

/-- Witness for C5 at a freshly constructed reader of capacity 4. -/
theorem c5_witness :
    (AccReader.with_capacity 4 src20).fill_buf.2 ≠ [] ∨
    (AccReader.with_capacity 4 src20).inner.data.length
      ≤ (AccReader.with_capacity 4 src20).inner.spos :=
  c5_fill_buf_nonempty (AccReader.with_capacity 4 src20)
    (by decide) (by decide) (by decide)

/-- Consume preserves the structural invariant. -/
theorem inv_consume (r : AccReader) (n : Nat) (h : Inv r) : Inv (r.consume n) := by
  obtain ⟨ha, hb⟩ := h
  exact ⟨by simp [AccReader.consume], hb⟩

/-- Fill preserves the structural invariant. -/
theorem inv_fill (r : AccReader) (h : Inv r) : Inv r.fill_buf.1 := by
  obtain ⟨hp0, _, hele, _, _, _, _, _, _⟩ := fill_buf_spec r h.1 h.2
  exact ⟨by omega, hele⟩

/-- Read preserves the structural invariant. -/
theorem inv_read (r : AccReader) (dest : List Nat) (h : Inv r) : Inv (r.read dest).2.2 := by
  unfold AccReader.read
  by_cases hb1 : dest.length < r.«end» - r.pos
  · rw [if_pos hb1]
    exact inv_consume r _ h
  · rw [if_neg hb1]
    by_cases hb2 : r.buf.length < dest.length
    · rw [if_pos hb2]
      have h1 := inv_consume r (sliceRead ((r.buf.drop r.pos).take (r.«end» - r.pos)) dest).1 h
      exact ⟨h1.1, h1.2⟩
    · rw [if_neg hb2]
      exact inv_consume _ _ (inv_fill r h)

/-- The source-level seek path preserves the structural invariant. -/
theorem inv_seek_source (r : AccReader) (sf : SeekFrom) (h : Inv r) :
    Inv (r.seek_source sf).2 := by
  unfold AccReader.seek_source
  cases hs : r.inner.seek sf with
  | ok t =>
    exact inv_fill _ ⟨Nat.le_refl 0, Nat.zero_le _⟩
  | error e => exact h

/-- Seek preserves the structural invariant. -/
theorem inv_seek (r : AccReader) (sf : SeekFrom) (h : Inv r) : Inv (r.seek sf).2 := by
  obtain ⟨ha, hb⟩ := h
  cases sf with
  | start mv =>
    simp only [AccReader.seek]
    by_cases hw : r.index ≤ mv ∧ mv < r.index + r.«end» - r.pos
    · rw [if_pos hw]
      obtain ⟨hw1, hw2⟩ := hw
      exact ⟨by show r.pos + (mv - r.index) ≤ r.«end»; omega, hb⟩
    · rw [if_neg hw]
      exact inv_seek_source r _ ⟨ha, hb⟩
  | «end» d =>
    exact inv_seek_source r _ ⟨ha, hb⟩
  | current sz =>
    simp only [AccReader.seek]
    by_cases hw : 0 ≤ sz ∧ sz.toNat ≤ r.«end» - r.pos
    · rw [if_pos hw]
      obtain ⟨hw1, hw2⟩ := hw
      exact ⟨by show r.pos + sz.toNat ≤ r.«end»; omega, hb⟩
    · rw [if_neg hw]
      exact inv_seek_source r _ ⟨ha, hb⟩

/-- Grow preserves the structural invariant. -/
theorem inv_grow (r : AccReader) (n : Nat) (h : Inv r) : Inv (r.grow n) := by
  obtain ⟨ha, hb⟩ := h
  refine ⟨ha, ?_⟩
  show r.«end» ≤ (r.grow n).buf.length
  rw [grow_buf_eq]
  simp
  omega

/-- Every single operation preserves the structural invariant. -/
theorem inv_applyOp (r : AccReader) (op : Op) (h : Inv r) : Inv (applyOp r op) := by
  cases op with
  | fill => exact inv_fill r h
  | consume n => exact inv_consume r n h
  | read n => exact inv_read r _ h
  | seek sf => exact inv_seek r sf h
  | grow n => exact inv_grow r n h

/-- The structural invariant is preserved by arbitrary operation
sequences. -/
theorem inv_foldl (ops : List Op) : ∀ r : AccReader, Inv r → Inv (ops.foldl applyOp r) := by
  induction ops with
  | nil => intro r h; exact h
  | cons op ops ih =>
    intro r h
    exact ih (applyOp r op) (inv_applyOp r op h)

/-- Claim C8: the invariant `0 ≤ pos ≤ end ≤ buf.length` holds at
construction (any capacity, any source) and after every sequence of
`fill_buf`, `consume`, `read`, `seek` and `grow` calls. -/
theorem c8_invariant_all_sequences (src : Source) (cap : Nat) (ops : List Op) :
    Inv (ops.foldl applyOp (AccReader.with_capacity cap src)) := by
  refine inv_foldl ops _ ⟨Nat.le_refl 0, ?_⟩
  simp [AccReader.with_capacity]

/-- Taking more of a dropped suffix extends the window on the right: the
concatenation of the window at `d` of width `w` with the next `f` source
bytes is again a window at `d`. -/
theorem window_extend (S : List Nat) (d w f : Nat) :
    (S.drop d).take w ++ (S.drop (d + w)).take f
      = (S.drop d).take (w + ((S.drop (d + w)).take f).length) := by
  rw [List.take_add]
  congr 1
  rw [List.drop_drop]
  apply List.take_eq_take.mpr
  simp

/-- After a compacting `fill_buf`, the new window is the source window at
`delivered r` of the new width. -/
theorem fill_buf_content (r : AccReader) (h : InvR r) :
    r.fill_buf.1.data
      = (r.inner.data.drop (delivered r)).take (r.fill_buf.1.«end» - r.fill_buf.1.pos) := by
  obtain ⟨h1, h2, h3, h4, h5⟩ := h
  by_cases hc : r.pos ≠ 0 ∨ r.«end» ≠ r.buf.length
  · have h5' : (r.buf.drop r.pos).take (r.«end» - r.pos)
        = (r.inner.data.drop (r.inner.spos - (r.«end» - r.pos))).take (r.«end» - r.pos) := by
      have := h5
      unfold AccReader.data delivered at this
      exact this
    unfold AccReader.fill_buf
    rw [if_pos hc]
    simp only [AccReader.data, AccReader.reset_buffer_position, Source.read, writeAt, delivered]
    set w := r.«end» - r.pos with hw
    set A := (r.buf.drop r.pos).take w with hA
    set B1 := A ++ r.buf.drop w with hB1
    set bs := (r.inner.data.drop r.inner.spos).take (B1.length - w) with hbs
    have hAlen : A.length = w := by
      rw [hA]
      simp
      omega
    have hB1take : B1.take w = A := by
      rw [hB1]
      exact List.take_left' hAlen
    have hfrontlen : (B1.take w ++ bs).length = w + bs.length := by
      rw [hB1take]
      simp [hAlen]
    rw [Nat.sub_zero, List.drop_zero, List.take_left' hfrontlen, hB1take, h5']
    have hbs2 : bs = (r.inner.data.drop (r.inner.spos - w + w)).take (B1.length - w) := by
      rw [Nat.sub_add_cancel h3]
    rw [hbs2]
    exact window_extend r.inner.data (r.inner.spos - w) w (B1.length - w)
  · unfold AccReader.fill_buf
    rw [if_neg hc]
    exact h5

/-- Consuming at most the window length advances `pos` exactly, keeps
everything else, and drops the consumed prefix from the window. -/
theorem consume_spec (r : AccReader) (c : Nat)
    (h1 : r.pos ≤ r.«end») (hc : c ≤ r.«end» - r.pos) :
    (r.consume c).pos = r.pos + c ∧
    (r.consume c).«end» = r.«end» ∧
    (r.consume c).buf = r.buf ∧
    (r.consume c).inner = r.inner ∧
    (r.consume c).data = r.data.drop c := by
  have hmin : min (r.pos + c) r.«end» = r.pos + c := by omega
  refine ⟨by simp [AccReader.consume, hmin], rfl, rfl, rfl, ?_⟩
  show ((r.consume c).buf.drop (r.consume c).pos).take
      ((r.consume c).«end» - (r.consume c).pos) = r.data.drop c
  unfold AccReader.consume AccReader.data
  simp only [hmin]
  rw [List.drop_take, List.drop_drop]
  congr 1
  omega

/-- Fill preserves the refinement invariant and the delivered
count. -/
theorem fill_buf_invR (r : AccReader) (h : InvR r) :
    InvR r.fill_buf.1 ∧ delivered r.fill_buf.1 = delivered r := by
  have hcontent := fill_buf_content r h
  obtain ⟨h1, h2, h3, h4, h5⟩ := h
  obtain ⟨f1, f2, f3, f4, f5, f6, f7, f8, f9, f10⟩ := fill_buf_spec r h1 h2
  have hdel : delivered r.fill_buf.1 = delivered r := by
    unfold delivered
    omega
  refine ⟨⟨by omega, f3, by omega, by rw [f5] at *; omega, ?_⟩, hdel⟩
  rw [hcontent, hdel, f5]

/-- A slice read copies `min` of the two lengths: the destination keeps its
length and its copied prefix is the source prefix. -/
theorem sliceRead_spec (s d : List Nat) :
    (sliceRead s d).1 = min s.length d.length ∧
    (sliceRead s d).2.length = d.length ∧
    (sliceRead s d).2.take (sliceRead s d).1 = s.take (sliceRead s d).1 := by
  unfold sliceRead
  refine ⟨rfl, by simp, ?_⟩
  rw [List.take_append_of_le_length (by simp)]
  rw [List.take_take]
  simp

/-- One `read` with a fresh zeroed destination of length `n ≤ capacity`
(hence served by the small-request or fill-then-copy branch, never the
oversized one): it preserves the refinement invariant, touches neither the
source bytes nor the buffer length, returns at most `n` bytes, and the
bytes handed to the caller are exactly the next source bytes after
`delivered`; `delivered` advances by the returned count, which is positive
whenever the source still has bytes and `n ≥ 1`. -/
theorem read_step (r : AccReader) (n : Nat) (h : InvR r) (hn : n ≤ r.buf.length) :
    InvR (r.read (List.replicate n 0)).2.2 ∧
    (r.read (List.replicate n 0)).2.2.inner.data = r.inner.data ∧
    (r.read (List.replicate n 0)).2.2.buf.length = r.buf.length ∧
    (r.read (List.replicate n 0)).1 ≤ n ∧
    ((r.read (List.replicate n 0)).2.1.take (r.read (List.replicate n 0)).1).length
      = (r.read (List.replicate n 0)).1 ∧
    (r.read (List.replicate n 0)).2.1.take (r.read (List.replicate n 0)).1
      = (r.inner.data.drop (delivered r)).take (r.read (List.replicate n 0)).1 ∧
    delivered (r.read (List.replicate n 0)).2.2
      = delivered r + (r.read (List.replicate n 0)).1 ∧
    (delivered r < r.inner.data.length → 1 ≤ n →
      1 ≤ (r.read (List.replicate n 0)).1) := by
  obtain ⟨h1, h2, h3, h4, h5⟩ := h
  by_cases hb1 : n < r.«end» - r.pos
  · -- small-request branch
    have hred : r.read (List.replicate n 0)
        = ((sliceRead ((r.buf.drop r.pos).take n) (List.replicate n 0)).1,
           (sliceRead ((r.buf.drop r.pos).take n) (List.replicate n 0)).2,
           r.consume (sliceRead ((r.buf.drop r.pos).take n) (List.replicate n 0)).1) := by
      unfold AccReader.read
      simp only [List.length_replicate]
      rw [if_pos hb1]
    rw [hred]
    dsimp only
    obtain ⟨q1, q2, q3⟩ := sliceRead_spec ((r.buf.drop r.pos).take n) (List.replicate n 0)
    have hk : (sliceRead ((r.buf.drop r.pos).take n) (List.replicate n 0)).1 = n := by
      rw [q1]
      simp
      omega
    rw [hk] at q3 ⊢
    obtain ⟨c1, c2, c3, c4, c5⟩ := consume_spec r n h1 (by omega)
    have hd7 : delivered (r.consume n) = delivered r + n := by
      unfold delivered
      rw [c1, c2, c4]
      omega
    have hwin : (r.buf.drop r.pos).take n
        = (r.inner.data.drop (delivered r)).take n := by
      have hnw : min n (r.«end» - r.pos) = n := by omega
      calc (r.buf.drop r.pos).take n
          = ((r.buf.drop r.pos).take (r.«end» - r.pos)).take n := by
            rw [List.take_take, hnw]
        _ = ((r.inner.data.drop (delivered r)).take (r.«end» - r.pos)).take n := by
            rw [show (r.buf.drop r.pos).take (r.«end» - r.pos) = r.data from rfl, h5]
        _ = (r.inner.data.drop (delivered r)).take n := by
            rw [List.take_take, hnw]
    have hout : (sliceRead ((r.buf.drop r.pos).take n) (List.replicate n 0)).2.take n
        = (r.inner.data.drop (delivered r)).take n := by
      rw [q3, List.take_take]
      simp
      rw [hwin]
    refine ⟨⟨?_, ?_, ?_, ?_, ?_⟩, c4 ▸ rfl, by rw [c3], le_refl n, ?_, hout, hd7, ?_⟩
    · rw [c1, c2]; omega
    · rw [c2, c3]; exact h2
    · rw [c1, c2, c4]; omega
    · rw [c4]; exact h4
    · rw [c5, c1, c2, c4, h5, hd7, List.drop_take, List.drop_drop]
      congr 1
      omega
    · rw [q3, List.take_take]
      simp
      omega
    · intro _ _
      omega
  · -- fill-then-copy branch
    have hred : r.read (List.replicate n 0)
        = ((sliceRead r.fill_buf.2 (List.replicate n 0)).1,
           (sliceRead r.fill_buf.2 (List.replicate n 0)).2,
           r.fill_buf.1.consume (sliceRead r.fill_buf.2 (List.replicate n 0)).1) := by
      unfold AccReader.read
      simp only [List.length_replicate]
      rw [if_neg hb1, if_neg (by omega)]
    rw [hred]
    dsimp only
    obtain ⟨hIR2, hdel2⟩ := fill_buf_invR r ⟨h1, h2, h3, h4, h5⟩
    obtain ⟨f1, f2, f3, f4, f5, f6, f7, f8, f9, f10⟩ := fill_buf_spec r h1 h2
    obtain ⟨g1, g2, g3, g4, g5⟩ := hIR2
    have hW2len : r.fill_buf.1.data.length = r.fill_buf.1.«end» := by
      unfold AccReader.data
      simp [f1]
      omega
    obtain ⟨q1, q2, q3⟩ := sliceRead_spec r.fill_buf.2 (List.replicate n 0)
    set k := (sliceRead r.fill_buf.2 (List.replicate n 0)).1 with hkdef
    set D := (sliceRead r.fill_buf.2 (List.replicate n 0)).2 with hDdef
    have hk : k = min r.fill_buf.1.«end» n := by
      rw [q1, f7, hW2len]
      simp
    have q2a : D.length = n := by
      rw [q2]
      simp
    have hkle : k ≤ r.fill_buf.1.«end» - r.fill_buf.1.pos := by
      rw [hk, f1]
      omega
    obtain ⟨c1, c2, c3, c4, c5⟩ := consume_spec r.fill_buf.1 k g1 hkle
    have hd7 : delivered (r.fill_buf.1.consume k) = delivered r + k := by
      unfold delivered at hdel2 ⊢
      rw [c1, c2, c4]
      omega
    have hout : D.take k = (r.inner.data.drop (delivered r)).take k := by
      rw [q3, f7, g5, List.take_take, hdel2, f5]
      congr 1
      omega
    refine ⟨⟨?_, ?_, ?_, ?_, ?_⟩, ?_, ?_, ?_, ?_, hout, hd7, ?_⟩
    · rw [c1, c2]; omega
    · rw [c2, c3]; exact g2
    · rw [c1, c2, c4]; omega
    · rw [c4]; exact g4
    · rw [c5, c1, c2, c4, hd7, g5, hdel2, f5, List.drop_take, List.drop_drop]
      congr 1
      omega
    · rw [c4, f5]
    · rw [c3, f4]
    · rw [hk]; omega
    · simp [q2a]
      omega
    · intro hdlt hn1
      rw [hk]
      rcases Nat.eq_zero_or_pos (r.«end» - r.pos) with h0 | h0
      · have := f9 h0 (by unfold delivered at hdlt; omega) (by omega)
        omega
      · have := f2
        omega

/-- Running any sequence of reads whose sizes stay within the capacity
keeps the refinement invariant, never touches the source bytes or the
buffer length, and hands the caller exactly the source bytes following
`delivered`, in order, without loss or duplication; `delivered` advances by
the total number of bytes handed out. -/
theorem runReads_spec (ns : List Nat) : ∀ r : AccReader, InvR r →
    (∀ n ∈ ns, n ≤ r.buf.length) →
    InvR (runReads r ns).2 ∧
    (runReads r ns).2.inner.data = r.inner.data ∧
    (runReads r ns).2.buf.length = r.buf.length ∧
    (runReads r ns).1.flatten
      = (r.inner.data.drop (delivered r)).take (runReads r ns).1.flatten.length ∧
    delivered (runReads r ns).2 = delivered r + (runReads r ns).1.flatten.length := by
  induction ns with
  | nil =>
    intro r h _
    exact ⟨h, rfl, rfl, by simp [runReads], by simp [runReads]⟩
  | cons n ns ih =>
    intro r h hns
    have hn : n ≤ r.buf.length := hns n (by simp)
    obtain ⟨s1, s2, s3, s4, s5, s6, s7, s8⟩ := read_step r n h hn
    have hns2 : ∀ m ∈ ns, m ≤ (r.read (List.replicate n 0)).2.2.buf.length := by
      intro m hm
      rw [s3]
      exact hns m (by simp [hm])
    obtain ⟨t1, t2, t3, t4, t5⟩ := ih (r.read (List.replicate n 0)).2.2 s1 hns2
    rw [s2, s7] at t4
    have hrun : runReads r (n :: ns)
        = ((r.read (List.replicate n 0)).2.1.take (r.read (List.replicate n 0)).1
            :: (runReads (r.read (List.replicate n 0)).2.2 ns).1,
           (runReads (r.read (List.replicate n 0)).2.2 ns).2) := rfl
    rw [hrun]
    refine ⟨t1, by rw [t2, s2], by rw [t3, s3], ?_, ?_⟩
    · show ((r.read (List.replicate n 0)).2.1.take (r.read (List.replicate n 0)).1
            :: (runReads (r.read (List.replicate n 0)).2.2 ns).1).flatten = _
      rw [List.flatten_cons, s6, t4]
      rw [List.length_append]
      have hlen : ((r.inner.data.drop (delivered r)).take (r.read (List.replicate n 0)).1).length
          = (r.read (List.replicate n 0)).1 := by
        rw [← s6]
        exact s5
      rw [hlen]
      exact window_extend r.inner.data (delivered r) (r.read (List.replicate n 0)).1 _
    · show delivered (runReads (r.read (List.replicate n 0)).2.2 ns).2 = _
      rw [t5, s7, List.flatten_cons, List.length_append, s5]
      omega

/-- Reading with destination size equal to the capacity `k` times delivers
at least `min (delivered + k) |source|` bytes in total: each read makes
progress while the source is not exhausted. -/
theorem runReads_growth (k : Nat) : ∀ r : AccReader, InvR r → 1 ≤ r.buf.length →
    min (delivered r + k) r.inner.data.length
      ≤ delivered (runReads r (List.replicate k r.buf.length)).2 := by
  induction k with
  | zero =>
    intro r h _
    obtain ⟨h1, h2, h3, h4, h5⟩ := h
    show min (delivered r + 0) r.inner.data.length ≤ delivered r
    unfold delivered
    omega
  | succ k ih =>
    intro r h hcap
    obtain ⟨s1, s2, s3, s4, s5, s6, s7, s8⟩ := read_step r r.buf.length h (le_refl _)
    have hrep : List.replicate (k + 1) r.buf.length
        = r.buf.length :: List.replicate k r.buf.length := rfl
    rw [hrep]
    show min (delivered r + (k + 1)) r.inner.data.length
        ≤ delivered (runReads (r.read (List.replicate r.buf.length 0)).2.2
            (List.replicate k r.buf.length)).2
    have ih2 := ih (r.read (List.replicate r.buf.length 0)).2.2 s1 (by rw [s3]; exact hcap)
    rw [s3, s2] at ih2
    by_cases hd : delivered r < r.inner.data.length
    · have hc1 := s8 hd (by omega)
      omega
    · omega

/-- Claim C7: starting from a freshly constructed reader over a source
positioned at 0, any sequence of reads whose request sizes stay within the
capacity (so each is served by the small-request or the fill-triggering
branch) hands back exactly the corresponding prefix of the source bytes —
no loss, duplication or reordering across refills and compactions — and
with a positive capacity, `|source|` capacity-sized reads reproduce the
source byte sequence exactly. -/
theorem c7_round_trip (bytes : List Nat) (e : Option Nat) (cap : Nat) (ns : List Nat)
    (hns : ∀ n ∈ ns, n ≤ cap) :
    ((runReads (AccReader.with_capacity cap ⟨bytes, 0, e⟩) ns).1.flatten
      = bytes.take
          (runReads (AccReader.with_capacity cap ⟨bytes, 0, e⟩) ns).1.flatten.length) ∧
    (1 ≤ cap →
      (runReads (AccReader.with_capacity cap ⟨bytes, 0, e⟩)
          (List.replicate bytes.length cap)).1.flatten = bytes) := by
  have hinv : InvR (AccReader.with_capacity cap ⟨bytes, 0, e⟩) := by
    unfold InvR AccReader.with_capacity delivered AccReader.data
    simp
  have hbuf : (AccReader.with_capacity cap ⟨bytes, 0, e⟩).buf.length = cap := by
    simp [AccReader.with_capacity]
  have hdel0 : delivered (AccReader.with_capacity cap ⟨bytes, 0, e⟩) = 0 := rfl
  have hS0 : (AccReader.with_capacity cap ⟨bytes, 0, e⟩).inner.data = bytes := rfl
  constructor
  · obtain ⟨t1, t2, t3, t4, t5⟩ := runReads_spec ns _ hinv
      (by intro m hm; rw [hbuf]; exact hns m hm)
    rw [hdel0, hS0, List.drop_zero] at t4
    exact t4
  · intro hcap1
    have hg := runReads_growth bytes.length _ hinv (by rw [hbuf]; omega)
    rw [hbuf, hdel0, hS0] at hg
    obtain ⟨t1, t2, t3, t4, t5⟩ := runReads_spec (List.replicate bytes.length cap) _ hinv
      (by
        intro m hm
        rw [hbuf]
        have := List.eq_of_mem_replicate hm
        omega)
    rw [hdel0, hS0, List.drop_zero] at t4
    rw [hdel0] at t5
    obtain ⟨u1, u2, u3, u4, u5⟩ := t1
    have hdfle : delivered (runReads (AccReader.with_capacity cap ⟨bytes, 0, e⟩)
        (List.replicate bytes.length cap)).2 ≤ bytes.length := by
      rw [hS0] at t2
      rw [t2] at u4
      unfold delivered
      omega
    have hLf : (runReads (AccReader.with_capacity cap ⟨bytes, 0, e⟩)
        (List.replicate bytes.length cap)).1.flatten.length = bytes.length := by
      omega
    rw [hLf, List.take_length] at t4
    exact t4

/-- Witness for C7: a capacity-2 reader over five source bytes reproduces
the source exactly after five capacity-sized reads. -/
theorem c7_witness :
    (runReads (AccReader.with_capacity 2 ⟨[1, 2, 3, 4, 5], 0, none⟩)
        (List.replicate 5 2)).1.flatten = [1, 2, 3, 4, 5] :=
  (c7_round_trip [1, 2, 3, 4, 5] none 2 [1, 2, 2] (by decide)).2 (by decide)

end AccRead
